import Mathlib

/-!
Verification of the game-code-normalizer library.

The JavaScript source of `src/index.js` is shallowly embedded below.
JS strings are Lean `String`s (reasoned about through their `List Char`
data), JS numbers appearing as inputs are modelled as integers, and the
`createdAt` timestamp field of the result (the only side effect of the
source, a clock read) is omitted from the embedded result record.
JS `toUpperCase` is modelled by the per-character ASCII mapping
`Char.toUpper`, which agrees with the source on the character sets the
library manipulates.
-/

namespace GameCodeNormalizer

/-- JS primitive values that may appear as a code input or as the `code`
field of a structured input. Numbers are modelled as integers. -/
inductive JSPrim where
  | nullV : JSPrim
  | undef : JSPrim
  | str : String → JSPrim
  | num : Int → JSPrim
  | boolV : Bool → JSPrim
deriving DecidableEq

/-- The input union accepted by `normalizeCode`: a primitive value, or an
object carrying a `code` field and an optional `meta` field, following the
source test `input !== null && typeof input === 'object'`. The type `μ` is
the opaque type of the pass-through `meta` payload; `none` models an absent
or `undefined` field. -/
inductive JSInput (μ : Type) where
  | prim : JSPrim → JSInput μ
  | obj : JSPrim → Option μ → JSInput μ

/-- The argument of `normalizeCodes`: either a proper JS array of inputs,
or any non-array value, mirroring the source test `Array.isArray(inputs)`. -/
inductive BatchInput (μ : Type) where
  | arr : List (JSInput μ) → BatchInput μ
  | notArray : JSPrim → BatchInput μ

/-- Models the JS expression `String(v || '')` of the source: every falsy
value (null, undefined, the empty string, the number 0, false) coerces to
the empty string, every other value to its text form. -/
def jsToStringOrEmpty : JSPrim → String
  | JSPrim.nullV => ""
  | JSPrim.undef => ""
  | JSPrim.str s => if s = "" then "" else s
  | JSPrim.num n => if n = 0 then "" else toString n
  | JSPrim.boolV b => if b then "true" else ""

/-- `rawCode` extraction of the source: an object contributes its `code`
field, any other input is coerced itself, both through `String(v || '')`. -/
def extractRawCode {μ : Type} : JSInput μ → String
  | JSInput.prim v => jsToStringOrEmpty v
  | JSInput.obj code _ => jsToStringOrEmpty code

/-- `meta` extraction of the source: `input.meta` for object inputs
(`undefined`, modelled `none`, when the field is missing), `undefined`
otherwise. -/
def extractMeta {μ : Type} : JSInput μ → Option μ
  | JSInput.prim _ => none
  | JSInput.obj _ m => m

/-- Per-call configuration: the optional length bounds (absent models
`undefined`, resolved by the JS nullish coalescing `config.minLength ?? 4`)
and the caller-supplied pattern tables as ordered association lists,
mirroring the entry order of the JS objects. -/
structure RawConfig where
  minLength : Option Int
  maxLength : Option Int
  prefixes : List (String × String)
  keywords : List (String × String)
deriving DecidableEq

/-- The configuration of a call made with no overrides, `config = ` empty. -/
def defaultRawConfig : RawConfig :=
  RawConfig.mk none none [] []

def DEFAULT_MIN_LENGTH : Int := 4

def DEFAULT_MAX_LENGTH : Int := 16

def DEFAULT_PREFIXES : List (String × String) :=
  [("IKES", "class_reroll")]

def DEFAULT_KEYWORDS : List (String × String) :=
  [("MERR", "event_reward"), ("STAT", "stat_reset"), ("COIN", "currency"),
   ("GEM", "currency"), ("CASH", "currency")]

/-- Models the entry list of the JS object spread of defaults overlaid by
overrides: a key already among the defaults keeps its position and takes
the override's value; new override keys follow in their own order. -/
def mergePatterns (defaults overrides : List (String × String)) :
    List (String × String) :=
  defaults.map (fun d =>
    match overrides.find? (fun o => o.1 == d.1) with
    | some o => (d.1, o.2)
    | none => d)
  ++ overrides.filter (fun o => !(defaults.any (fun d => d.1 == o.1)))

def mergedMinLength (config : RawConfig) : Int :=
  config.minLength.getD DEFAULT_MIN_LENGTH

def mergedMaxLength (config : RawConfig) : Int :=
  config.maxLength.getD DEFAULT_MAX_LENGTH

def mergedPrefixes (config : RawConfig) : List (String × String) :=
  mergePatterns DEFAULT_PREFIXES config.prefixes

def mergedKeywords (config : RawConfig) : List (String × String) :=
  mergePatterns DEFAULT_KEYWORDS config.keywords

/-- The code points matched by the whitespace class of the JS regex and by
`String.prototype.trim` (ECMAScript WhiteSpace and LineTerminator). -/
def isJsWhitespace (c : Char) : Bool :=
  (decide (9 ≤ c.toNat) && decide (c.toNat ≤ 13)) || decide (c.toNat = 32) ||
  decide (c.toNat = 160) || decide (c.toNat = 5760) ||
  (decide (8192 ≤ c.toNat) && decide (c.toNat ≤ 8202)) ||
  decide (c.toNat = 8232) || decide (c.toNat = 8233) ||
  decide (c.toNat = 8239) || decide (c.toNat = 8287) ||
  decide (c.toNat = 12288) || decide (c.toNat = 65279)

/-- A character removed by the source's separator regex: whitespace or the
hyphen. -/
def isSeparator (c : Char) : Bool :=
  isJsWhitespace c || decide (c = '-')

/-- Models `String.prototype.trim`: drop whitespace from both ends. -/
def jsTrim (l : List Char) : List Char :=
  ((l.dropWhile isJsWhitespace).reverse.dropWhile isJsWhitespace).reverse

/-- Step 1 of the source: trim, remove every whitespace and hyphen, then
uppercase. -/
def normalizeChars (l : List Char) : List Char :=
  ((jsTrim l).filter (fun c => !isSeparator c)).map Char.toUpper

/-- A character admitted by the validation character class, A-Z or 0-9. -/
def isCodeChar (c : Char) : Bool :=
  (decide ('A' ≤ c) && decide (c ≤ 'Z')) ||
  (decide ('0' ≤ c) && decide (c ≤ '9'))

/-- Models the test of the validation regex: some character lies outside
A-Z and 0-9. -/
def hasInvalidChar (l : List Char) : Bool :=
  l.any (fun c => !isCodeChar c)

/-- Models `normalized.includes(pattern)`: substring containment. -/
def isSubstring (pat : String) (l : List Char) : Bool :=
  decide (pat.data <:+: l)

/-- The mutable state threaded through the source's two pattern loops. -/
structure ScanState where
  hints : List String
  probableType : String
  typeAlreadySet : Bool
deriving DecidableEq

/-- One iteration of a pattern loop of the source: on a substring match,
push the tagged hint and, if no earlier pattern fixed the type, take this
pattern's type. -/
def scanStep (tag : String) (n : List Char) (st : ScanState)
    (p : String × String) : ScanState :=
  if isSubstring p.1 n then
    ScanState.mk (st.hints ++ [tag ++ p.1])
      (if st.typeAlreadySet then st.probableType else p.2) true
  else st

/-- A whole pattern loop of the source, over the entries in order. -/
def scanPatterns (tag : String) (pats : List (String × String))
    (n : List Char) (st : ScanState) : ScanState :=
  pats.foldl (scanStep tag n) st

/-- Models `hints.indexOf(a)` followed by in-place assignment of `b`:
replace the first occurrence of `a`, leave the rest of the list alone. -/
def replaceFirst (l : List String) (a b : String) : List String :=
  match l with
  | [] => []
  | x :: xs => if x = a then b :: xs else x :: replaceFirst xs a b

/-- The result record of `normalizeCode`, without the `createdAt` clock
read; the `meta` field is `none` exactly when the source omits the field. -/
structure NormalizeResult (μ : Type) where
  normalized : String
  raw : String
  isValidFormat : Bool
  probableType : String
  hints : List String
  status : String
  length : Nat
  meta : Option μ
deriving DecidableEq

/-- The embedding of `normalizeCode` of `src/index.js`. -/
def normalizeCode {μ : Type} (input : JSInput μ) (config : RawConfig) :
    NormalizeResult μ :=
  let rawCode := extractRawCode input
  let normalized := normalizeChars rawCode.data
  let hasInvalid := hasInvalidChar normalized
  let hints0 : List String := if hasInvalid then ["INVALID:CHAR"] else []
  let length := normalized.length
  let isLengthValid :=
    decide (mergedMinLength config ≤ (length : Int)) &&
    decide ((length : Int) ≤ mergedMaxLength config)
  let isValidFormat := !hasInvalid && isLengthValid && decide (0 < length)
  let st1 := scanPatterns "PREFIX:" (mergedPrefixes config) normalized
    (ScanState.mk hints0 "unknown" false)
  let st2 := scanPatterns "KEYWORD:" (mergedKeywords config) normalized st1
  let hints := replaceFirst st2.hints "KEYWORD:MERR" "EVENT:MERRY"
  NormalizeResult.mk (String.mk normalized) rawCode isValidFormat
    st2.probableType hints "unknown" length (extractMeta input)

/-- The embedding of `normalizeCodes` of `src/index.js`. -/
def normalizeCodes {μ : Type} (inputs : BatchInput μ) (config : RawConfig) :
    List (NormalizeResult μ) :=
  match inputs with
  | BatchInput.arr l => l.map (fun input => normalizeCode input config)
  | BatchInput.notArray _ => []

/-- The normalized character list a given input produces, used to state the
classification claims. -/
def normalizedOf {μ : Type} (input : JSInput μ) : List Char :=
  normalizeChars (extractRawCode input).data

/-- The tagged hints a pattern table contributes, in table order. -/
def matchingHints (tag : String) (pats : List (String × String))
    (n : List Char) : List String :=
  pats.filterMap (fun p => if isSubstring p.1 n then some (tag ++ p.1) else none)

/-! Field projections of `normalizeCode`, definitional. -/

theorem raw_normalizeCode {μ : Type} (input : JSInput μ) (config : RawConfig) :
    (normalizeCode input config).raw = extractRawCode input := rfl

theorem normalized_normalizeCode {μ : Type} (input : JSInput μ) (config : RawConfig) :
    (normalizeCode input config).normalized = String.mk (normalizedOf input) := rfl

theorem length_normalizeCode {μ : Type} (input : JSInput μ) (config : RawConfig) :
    (normalizeCode input config).length = (normalizedOf input).length := rfl

theorem meta_normalizeCode {μ : Type} (input : JSInput μ) (config : RawConfig) :
    (normalizeCode input config).meta = extractMeta input := rfl

theorem isValidFormat_normalizeCode {μ : Type} (input : JSInput μ) (config : RawConfig) :
    (normalizeCode input config).isValidFormat =
      (!hasInvalidChar (normalizedOf input) &&
        (decide (mergedMinLength config ≤ ((normalizedOf input).length : Int)) &&
         decide (((normalizedOf input).length : Int) ≤ mergedMaxLength config)) &&
        decide (0 < (normalizedOf input).length)) := rfl

theorem hints_normalizeCode {μ : Type} (input : JSInput μ) (config : RawConfig) :
    (normalizeCode input config).hints =
      replaceFirst
        (scanPatterns "KEYWORD:" (mergedKeywords config) (normalizedOf input)
          (scanPatterns "PREFIX:" (mergedPrefixes config) (normalizedOf input)
            (ScanState.mk
              (if hasInvalidChar (normalizedOf input) then ["INVALID:CHAR"] else [])
              "unknown" false))).hints
        "KEYWORD:MERR" "EVENT:MERRY" := rfl

theorem probableType_normalizeCode {μ : Type} (input : JSInput μ) (config : RawConfig) :
    (normalizeCode input config).probableType =
      (scanPatterns "KEYWORD:" (mergedKeywords config) (normalizedOf input)
        (scanPatterns "PREFIX:" (mergedPrefixes config) (normalizedOf input)
          (ScanState.mk
            (if hasInvalidChar (normalizedOf input) then ["INVALID:CHAR"] else [])
            "unknown" false))).probableType := rfl

/-! Characterization of the pattern loops. -/

theorem hints_scanPatterns (tag : String) (n : List Char)
    (pats : List (String × String)) (st : ScanState) :
    (scanPatterns tag pats n st).hints = st.hints ++ matchingHints tag pats n := by
  induction pats generalizing st with
  | nil => simp [scanPatterns, matchingHints]
  | cons p ps ih =>
    rw [show scanPatterns tag (p :: ps) n st
          = scanPatterns tag ps n (scanStep tag n st p) from rfl, ih]
    by_cases h : isSubstring p.1 n = true
    · simp [scanStep, h, matchingHints, List.filterMap_cons]
    · simp [scanStep, h, matchingHints, List.filterMap_cons]

theorem set_scanPatterns (tag : String) (n : List Char)
    (pats : List (String × String)) (st : ScanState) :
    (scanPatterns tag pats n st).typeAlreadySet =
      (st.typeAlreadySet || pats.any (fun p => isSubstring p.1 n)) := by
  induction pats generalizing st with
  | nil => simp [scanPatterns]
  | cons p ps ih =>
    rw [show scanPatterns tag (p :: ps) n st
          = scanPatterns tag ps n (scanStep tag n st p) from rfl, ih]
    by_cases h : isSubstring p.1 n = true
    · simp [scanStep, h]
    · simp [scanStep, h]

theorem type_scanPatterns (tag : String) (n : List Char)
    (pats : List (String × String)) (st : ScanState) :
    (scanPatterns tag pats n st).probableType =
      (if st.typeAlreadySet = true then st.probableType
       else
         match pats.find? (fun p => isSubstring p.1 n) with
         | some p => p.2
         | none => st.probableType) := by
  induction pats generalizing st with
  | nil => simp [scanPatterns]
  | cons p ps ih =>
    rw [show scanPatterns tag (p :: ps) n st
          = scanPatterns tag ps n (scanStep tag n st p) from rfl, ih]
    by_cases h : isSubstring p.1 n = true
    · have hf : List.find? (fun q => isSubstring q.1 n) (p :: ps) = some p :=
        List.find?_cons_of_pos ps h
      rw [hf]
      by_cases hs : st.typeAlreadySet = true
      · simp [scanStep, h, hs]
      · simp [scanStep, h, hs]
    · have hf : List.find? (fun q => isSubstring q.1 n) (p :: ps)
          = List.find? (fun q => isSubstring q.1 n) ps :=
        List.find?_cons_of_neg ps h
      rw [hf]
      simp [scanStep, h]

/-! Facts about `replaceFirst`. -/

theorem replaceFirst_append_left (l₁ l₂ : List String) (a b : String)
    (h : a ∉ l₁) : replaceFirst (l₁ ++ l₂) a b = l₁ ++ replaceFirst l₂ a b := by
  induction l₁ with
  | nil => simp
  | cons x xs ih =>
    have hxa : ¬(x = a) := by
      intro he
      exact h (he ▸ List.mem_cons_self x xs)
    simp only [List.cons_append, replaceFirst, if_neg hxa]
    show x :: replaceFirst (xs ++ l₂) a b = x :: (xs ++ replaceFirst l₂ a b)
    rw [ih (fun hm => h (List.mem_cons_of_mem x hm))]

theorem mem_replaceFirst_of_ne {l : List String} {x a b : String}
    (hx : x ∈ l) (hne : x ≠ a) : x ∈ replaceFirst l a b := by
  induction l with
  | nil => cases hx
  | cons y ys ih =>
    by_cases hy : y = a
    · subst hy
      have h2 : x ∈ ys := by
        rcases List.mem_cons.mp hx with h1 | h2
        · exact absurd h1 hne
        · exact h2
      simp only [replaceFirst, if_pos rfl]
      exact List.mem_cons_of_mem _ h2
    · simp only [replaceFirst, if_neg hy]
      rcases List.mem_cons.mp hx with h1 | h2
      · exact h1 ▸ List.mem_cons_self _ _
      · exact List.mem_cons_of_mem _ (ih h2)

theorem mem_replaceFirst_self {l : List String} {a b : String}
    (ha : a ∈ l) : b ∈ replaceFirst l a b := by
  induction l with
  | nil => cases ha
  | cons y ys ih =>
    by_cases hy : y = a
    · simp only [replaceFirst, if_pos hy]
      exact List.mem_cons_self _ _
    · simp only [replaceFirst, if_neg hy]
      rcases List.mem_cons.mp ha with h1 | h2
      · exact absurd h1.symm hy
      · exact List.mem_cons_of_mem _ (ih h2)

theorem count_replaceFirst {l : List String} {x a b : String}
    (h1 : x ≠ a) (h2 : x ≠ b) :
    (replaceFirst l a b).count x = l.count x := by
  induction l with
  | nil => rfl
  | cons y ys ih =>
    by_cases hy : y = a
    · subst hy
      simp only [replaceFirst, if_pos rfl]
      simp [List.count_cons, h1, h2, ih]
    · simp only [replaceFirst, if_neg hy]
      simp [List.count_cons, ih]

/-! String disequality helpers for the hint tags. -/

theorem append_ne_of_take_ne (t x u : String)
    (h : u.data.take t.data.length ≠ t.data) : t ++ x ≠ u := by
  intro he
  apply h
  rw [← he, String.data_append]
  exact List.take_left _ _

theorem append_left_cancel_str {t x y : String} (h : t ++ x = t ++ y) : x = y := by
  apply String.ext
  have hd := congrArg String.data h
  rw [String.data_append, String.data_append] at hd
  exact List.append_cancel_left hd

/-! Facts about `matchingHints`. -/

theorem eq_tagged_of_mem_matchingHints {tag : String}
    {pats : List (String × String)} {n : List Char} {x : String}
    (hx : x ∈ matchingHints tag pats n) :
    ∃ p, p ∈ pats ∧ isSubstring p.1 n = true ∧ x = tag ++ p.1 := by
  simp only [matchingHints] at hx
  rcases List.mem_filterMap.mp hx with ⟨p, hp, he⟩
  by_cases hs : isSubstring p.1 n = true
  · rw [if_pos hs] at he
    exact ⟨p, hp, hs, (Option.some.inj he).symm⟩
  · rw [if_neg hs] at he
    cases he

theorem tagged_mem_matchingHints {tag : String}
    {pats : List (String × String)} {n : List Char} {p : String × String}
    (hp : p ∈ pats) (hs : isSubstring p.1 n = true) :
    tag ++ p.1 ∈ matchingHints tag pats n := by
  simp only [matchingHints]
  exact List.mem_filterMap.mpr ⟨p, hp, by rw [if_pos hs]⟩

/-! Bridging the validation booleans to their stated meaning. -/

theorem isCodeChar_iff (c : Char) :
    isCodeChar c = true ↔ ('A' ≤ c ∧ c ≤ 'Z') ∨ ('0' ≤ c ∧ c ≤ '9') := by
  simp [isCodeChar]

theorem hasInvalidChar_false_iff (l : List Char) :
    hasInvalidChar l = false ↔
      ∀ c ∈ l, ('A' ≤ c ∧ c ≤ 'Z') ∨ ('0' ≤ c ∧ c ≤ '9') := by
  constructor
  · intro h c hc
    apply (isCodeChar_iff c).mp
    cases hb : isCodeChar c
    · exfalso
      have h2 : hasInvalidChar l = true :=
        List.any_eq_true.mpr ⟨c, hc, by simp [hb]⟩
      rw [h2] at h
      cases h
    · rfl
  · intro h
    cases hb : hasInvalidChar l
    · rfl
    · exfalso
      rcases List.any_eq_true.mp hb with ⟨c, hc, hcc⟩
      have h2 := (isCodeChar_iff c).mpr (h c hc)
      rw [h2] at hcc
      simp at hcc

theorem hasInvalidChar_true_iff (l : List Char) :
    hasInvalidChar l = true ↔
      ∃ c ∈ l, ¬(('A' ≤ c ∧ c ≤ 'Z') ∨ ('0' ≤ c ∧ c ≤ '9')) := by
  constructor
  · intro h
    rcases List.any_eq_true.mp h with ⟨c, hc, hcc⟩
    refine ⟨c, hc, ?_⟩
    intro hgood
    have h2 := (isCodeChar_iff c).mpr hgood
    rw [h2] at hcc
    simp at hcc
  · rintro ⟨c, hc, hbad⟩
    apply List.any_eq_true.mpr
    refine ⟨c, hc, ?_⟩
    cases hb : isCodeChar c
    · simp [hb]
    · exact absurd ((isCodeChar_iff c).mp hb) hbad

/-! Disequalities between the concrete hint tags. -/

theorem keywordMerr_ne_invalid : ("KEYWORD:MERR" : String) ≠ "INVALID:CHAR" := by
  decide

theorem event_merry_ne_invalid : ("EVENT:MERRY" : String) ≠ "INVALID:CHAR" := by
  decide

theorem prefix_tag_ne_keywordMerr (x : String) :
    ("PREFIX:" ++ x) ≠ "KEYWORD:MERR" :=
  append_ne_of_take_ne _ _ _ (by decide)

theorem prefix_tag_ne_invalid (x : String) :
    ("PREFIX:" ++ x) ≠ "INVALID:CHAR" :=
  append_ne_of_take_ne _ _ _ (by decide)

theorem keyword_tag_ne_invalid (x : String) :
    ("KEYWORD:" ++ x) ≠ "INVALID:CHAR" :=
  append_ne_of_take_ne _ _ _ (by decide)

theorem mem_or_of_mem_replaceFirst {l : List String} {x a b : String}
    (hx : x ∈ replaceFirst l a b) : x ∈ l ∨ x = b := by
  induction l with
  | nil => cases hx
  | cons y ys ih =>
    by_cases hy : y = a
    · simp only [replaceFirst, if_pos hy] at hx
      rcases List.mem_cons.mp hx with h1 | h2
      · exact Or.inr h1
      · exact Or.inl (List.mem_cons_of_mem _ h2)
    · simp only [replaceFirst, if_neg hy] at hx
      rcases List.mem_cons.mp hx with h1 | h2
      · exact Or.inl (h1 ▸ List.mem_cons_self _ _)
      · rcases ih h2 with h3 | h3
        · exact Or.inl (List.mem_cons_of_mem _ h3)
        · exact Or.inr h3

/-! Explicit closed forms of the hint list and the classification label. -/

theorem hints_normalizeCode_explicit {μ : Type} (input : JSInput μ)
    (config : RawConfig) :
    (normalizeCode input config).hints =
      (if hasInvalidChar (normalizedOf input) then ["INVALID:CHAR"] else [])
      ++ matchingHints "PREFIX:" (mergedPrefixes config) (normalizedOf input)
      ++ replaceFirst
          (matchingHints "KEYWORD:" (mergedKeywords config) (normalizedOf input))
          "KEYWORD:MERR" "EVENT:MERRY" := by
  rw [hints_normalizeCode, hints_scanPatterns, hints_scanPatterns]
  have hA : ∀ b : Bool, ("KEYWORD:MERR" : String) ∉
      (if b = true then ["INVALID:CHAR"] else ([] : List String)) := by
    intro b
    cases b <;> decide
  have hni : ("KEYWORD:MERR" : String) ∉
      ((if hasInvalidChar (normalizedOf input) then ["INVALID:CHAR"] else [])
        ++ matchingHints "PREFIX:" (mergedPrefixes config) (normalizedOf input)) := by
    intro hm
    rcases List.mem_append.mp hm with h1 | h2
    · exact hA _ h1
    · rcases eq_tagged_of_mem_matchingHints h2 with ⟨p, _, _, he⟩
      exact prefix_tag_ne_keywordMerr p.1 he.symm
  exact replaceFirst_append_left _ _ _ _ hni

theorem probableType_normalizeCode_explicit {μ : Type} (input : JSInput μ)
    (config : RawConfig) :
    (normalizeCode input config).probableType =
      (match (mergedPrefixes config).find?
          (fun p => isSubstring p.1 (normalizedOf input)) with
       | some p => p.2
       | none =>
         match (mergedKeywords config).find?
             (fun p => isSubstring p.1 (normalizedOf input)) with
         | some p => p.2
         | none => "unknown") := by
  rw [probableType_normalizeCode, type_scanPatterns, set_scanPatterns,
    type_scanPatterns]
  cases hP : (mergedPrefixes config).find?
      (fun p => isSubstring p.1 (normalizedOf input)) with
  | some p =>
    have hmem : p ∈ mergedPrefixes config := List.mem_of_find?_eq_some hP
    have hsub : isSubstring p.1 (normalizedOf input) = true :=
      @List.find?_some _ (fun q => isSubstring q.1 (normalizedOf input)) p _ hP
    have hAny : (mergedPrefixes config).any
        (fun q => isSubstring q.1 (normalizedOf input)) = true :=
      List.any_eq_true.mpr ⟨p, hmem, hsub⟩
    simp [hAny, hP]
  | none =>
    have hAny : (mergedPrefixes config).any
        (fun q => isSubstring q.1 (normalizedOf input)) = false :=
      List.any_eq_false.mpr (List.find?_eq_none.mp hP)
    simp [hAny, hP]

theorem count_invalid_hints {μ : Type} (input : JSInput μ) (config : RawConfig) :
    ((normalizeCode input config).hints).count "INVALID:CHAR" =
      (if hasInvalidChar (normalizedOf input) then 1 else 0) := by
  rw [hints_normalizeCode_explicit, List.count_append, List.count_append]
  have c1 : (matchingHints "PREFIX:" (mergedPrefixes config)
      (normalizedOf input)).count "INVALID:CHAR" = 0 := by
    rw [List.count_eq_zero]
    intro hm
    rcases eq_tagged_of_mem_matchingHints hm with ⟨p, _, _, he⟩
    exact prefix_tag_ne_invalid p.1 he.symm
  have c2 : (replaceFirst
      (matchingHints "KEYWORD:" (mergedKeywords config) (normalizedOf input))
      "KEYWORD:MERR" "EVENT:MERRY").count "INVALID:CHAR" = 0 := by
    rw [List.count_eq_zero]
    intro hm
    rcases mem_or_of_mem_replaceFirst hm with h1 | h1
    · rcases eq_tagged_of_mem_matchingHints h1 with ⟨p, _, _, he⟩
      exact keyword_tag_ne_invalid p.1 he.symm
    · exact event_merry_ne_invalid h1.symm
  rw [c1, c2]
  cases hb : hasInvalidChar (normalizedOf input) <;> decide

/-! Character-level facts feeding the idempotence of the pipeline. -/

theorem toNat_ofNat_of_lt {n : Nat} (h : n < 55296) : (Char.ofNat n).toNat = n := by
  have hv : n.isValidChar := Or.inl h
  unfold Char.ofNat
  rw [dif_pos hv]
  rfl

theorem toNat_toUpper_of_lower {c : Char} (h1 : 97 ≤ c.toNat) (h2 : c.toNat ≤ 122) :
    (Char.toUpper c).toNat = c.toNat - 32 := by
  show (if c.toNat ≥ 97 ∧ c.toNat ≤ 122 then Char.ofNat (c.toNat - 32) else c).toNat
      = c.toNat - 32
  rw [if_pos ⟨h1, h2⟩]
  exact toNat_ofNat_of_lt (by omega)

theorem toUpper_eq_self_of_not {c : Char} (h : ¬(97 ≤ c.toNat ∧ c.toNat ≤ 122)) :
    Char.toUpper c = c := by
  show (if c.toNat ≥ 97 ∧ c.toNat ≤ 122 then Char.ofNat (c.toNat - 32) else c) = c
  rw [if_neg (fun hc => h ⟨hc.1, hc.2⟩)]

theorem isJsWhitespace_false_of_range {c : Char} (h1 : 65 ≤ c.toNat)
    (h2 : c.toNat ≤ 90) : isJsWhitespace c = false := by
  cases hb : isJsWhitespace c
  · rfl
  · exfalso
    simp only [isJsWhitespace, Bool.or_eq_true, Bool.and_eq_true,
      decide_eq_true_eq] at hb
    omega

theorem ne_hyphen_of_range {c : Char} (h1 : 65 ≤ c.toNat) (h2 : c.toNat ≤ 90) :
    ¬(c = '-') := by
  intro he
  have h3 := congrArg Char.toNat he
  rw [show ('-').toNat = 45 from rfl] at h3
  omega

theorem isSeparator_toUpper_false {c : Char} (h : isSeparator c = false) :
    isSeparator (Char.toUpper c) = false := by
  by_cases hl : 97 ≤ c.toNat ∧ c.toNat ≤ 122
  · have ht : (Char.toUpper c).toNat = c.toNat - 32 :=
      toNat_toUpper_of_lower hl.1 hl.2
    have h1 : 65 ≤ (Char.toUpper c).toNat := by omega
    have h2 : (Char.toUpper c).toNat ≤ 90 := by omega
    have hw := isJsWhitespace_false_of_range h1 h2
    have hh := ne_hyphen_of_range h1 h2
    simp only [isSeparator, hw]
    simp [hh]
  · rw [toUpper_eq_self_of_not hl]
    exact h

theorem toUpper_toUpper (c : Char) :
    Char.toUpper (Char.toUpper c) = Char.toUpper c := by
  by_cases hl : 97 ≤ c.toNat ∧ c.toNat ≤ 122
  · have ht : (Char.toUpper c).toNat = c.toNat - 32 :=
      toNat_toUpper_of_lower hl.1 hl.2
    apply toUpper_eq_self_of_not
    omega
  · rw [toUpper_eq_self_of_not hl, toUpper_eq_self_of_not hl]

theorem isJsWhitespace_toUpper_false {c : Char} (h : isSeparator c = false) :
    isJsWhitespace (Char.toUpper c) = false := by
  have h2 := isSeparator_toUpper_false h
  cases hb : isJsWhitespace (Char.toUpper c)
  · rfl
  · exfalso
    rw [isSeparator, hb] at h2
    simp at h2

theorem mem_normalizeChars {l : List Char} {c : Char} (hc : c ∈ normalizeChars l) :
    isSeparator c = false ∧ Char.toUpper c = c := by
  rcases List.mem_map.mp hc with ⟨d, hd, he⟩
  have hdf : isSeparator d = false := by
    have h2 := (List.mem_filter.mp hd).2
    cases hs : isSeparator d
    · rfl
    · rw [hs] at h2
      simp at h2
  subst he
  exact ⟨isSeparator_toUpper_false hdf, toUpper_toUpper d⟩

theorem dropWhile_eq_self_of_false {l : List Char} {p : Char → Bool}
    (h : ∀ c ∈ l, p c = false) : l.dropWhile p = l := by
  cases l with
  | nil => rfl
  | cons c cs =>
    rw [List.dropWhile_cons, h c (List.mem_cons_self _ _)]
    simp

theorem jsTrim_eq_self {l : List Char} (h : ∀ c ∈ l, isJsWhitespace c = false) :
    jsTrim l = l := by
  show ((l.dropWhile isJsWhitespace).reverse.dropWhile isJsWhitespace).reverse = l
  rw [dropWhile_eq_self_of_false h,
    dropWhile_eq_self_of_false (fun c hc => h c (List.mem_reverse.mp hc))]
  exact List.reverse_reverse l

theorem map_eq_self_of_eq {l : List Char} {f : Char → Char}
    (h : ∀ c ∈ l, f c = c) : l.map f = l := by
  induction l with
  | nil => rfl
  | cons c cs ih =>
    rw [List.map_cons, h c (List.mem_cons_self _ _),
      ih (fun d hd => h d (List.mem_cons_of_mem _ hd))]

theorem normalizeChars_idem (l : List Char) :
    normalizeChars (normalizeChars l) = normalizeChars l := by
  have hws : ∀ c ∈ normalizeChars l, isJsWhitespace c = false := by
    intro c hc
    have h1 := (mem_normalizeChars hc).1
    cases hb : isJsWhitespace c
    · rfl
    · exfalso
      rw [isSeparator, hb] at h1
      simp at h1
  have htrim : jsTrim (normalizeChars l) = normalizeChars l := jsTrim_eq_self hws
  have hfilter : (normalizeChars l).filter (fun c => !isSeparator c)
      = normalizeChars l := by
    rw [List.filter_eq_self]
    intro c hc
    rw [(mem_normalizeChars hc).1]
    rfl
  have hmap : (normalizeChars l).map Char.toUpper = normalizeChars l :=
    map_eq_self_of_eq (fun c hc => (mem_normalizeChars hc).2)
  show ((jsTrim (normalizeChars l)).filter (fun c => !isSeparator c)).map Char.toUpper
      = normalizeChars l
  rw [htrim, hfilter, hmap]

theorem jsToStringOrEmpty_str (s : String) :
    jsToStringOrEmpty (JSPrim.str s) = s := by
  simp only [jsToStringOrEmpty]
  by_cases h : s = ""
  · rw [if_pos h, h]
  · rw [if_neg h]

theorem normalizedOf_str {μ : Type} (s : String) :
    normalizedOf (JSInput.prim (JSPrim.str s) : JSInput μ) = normalizeChars s.data := by
  show normalizeChars (jsToStringOrEmpty (JSPrim.str s)).data = normalizeChars s.data
  rw [jsToStringOrEmpty_str]

/-! The claims. -/

/-- Claim C1: for every input and configuration, `isValidFormat` is true iff
the normalized text has no character outside A-Z and 0-9, its length lies
between the configured minimum and maximum inclusive, and its length is
strictly positive; and the hint INVALID:CHAR appears exactly once in `hints`
when some invalid character is present and never otherwise. -/
theorem validFormat_iff_and_invalid_hint_once {μ : Type} (input : JSInput μ)
    (config : RawConfig) :
    ((normalizeCode input config).isValidFormat = true ↔
      ((∀ c ∈ (normalizeCode input config).normalized.data,
          ('A' ≤ c ∧ c ≤ 'Z') ∨ ('0' ≤ c ∧ c ≤ '9')) ∧
       mergedMinLength config ≤ ((normalizeCode input config).length : Int) ∧
       ((normalizeCode input config).length : Int) ≤ mergedMaxLength config ∧
       0 < (normalizeCode input config).length)) ∧
    ((normalizeCode input config).hints.count "INVALID:CHAR" =
      if ∃ c ∈ (normalizeCode input config).normalized.data,
          ¬(('A' ≤ c ∧ c ≤ 'Z') ∨ ('0' ≤ c ∧ c ≤ '9')) then 1 else 0) := by
  have hnd : (normalizeCode input config).normalized.data = normalizedOf input := rfl
  constructor
  · rw [isValidFormat_normalizeCode, length_normalizeCode, hnd]
    constructor
    · intro h
      simp only [Bool.and_eq_true, Bool.not_eq_true', decide_eq_true_eq] at h
      exact ⟨(hasInvalidChar_false_iff _).mp h.1.1, h.1.2.1, h.1.2.2, h.2⟩
    · intro h
      simp only [Bool.and_eq_true, Bool.not_eq_true', decide_eq_true_eq]
      exact ⟨⟨(hasInvalidChar_false_iff _).mpr h.1, h.2.1, h.2.2.1⟩, h.2.2.2⟩
  · rw [count_invalid_hints, hnd]
    by_cases hb : ∃ c ∈ normalizedOf input,
        ¬(('A' ≤ c ∧ c ≤ 'Z') ∨ ('0' ≤ c ∧ c ≤ '9'))
    · rw [if_pos ((hasInvalidChar_true_iff _).mpr hb), if_pos hb]
    · rw [if_neg (fun h => hb ((hasInvalidChar_true_iff _).mp h)), if_neg hb]

/-- Claim C2: when at least one configured prefix pattern occurs in the
normalized text, `probableType` is the label of the first matching prefix
pattern in configured order (later prefix matches and keyword matches never
change it); every matching prefix still contributes its PREFIX hint and
every matching keyword its KEYWORD hint, the latter possibly renamed to
EVENT:MERRY by the MERR rewrite. -/
theorem probableType_first_matching_pattern {μ : Type} (input : JSInput μ)
    (config : RawConfig)
    (h : ∃ p ∈ mergedPrefixes config, isSubstring p.1 (normalizedOf input) = true) :
    (((mergedPrefixes config).find?
        (fun p => isSubstring p.1 (normalizedOf input))).map Prod.snd
      = some (normalizeCode input config).probableType) ∧
    (∀ p ∈ mergedPrefixes config, isSubstring p.1 (normalizedOf input) = true →
      ("PREFIX:" ++ p.1) ∈ (normalizeCode input config).hints) ∧
    (∀ p ∈ mergedKeywords config, isSubstring p.1 (normalizedOf input) = true →
      ("KEYWORD:" ++ p.1) ∈ (normalizeCode input config).hints ∨
        ("EVENT:MERRY" : String) ∈ (normalizeCode input config).hints) := by
  refine ⟨?_, ?_, ?_⟩
  · rcases h with ⟨p0, hp0, hs0⟩
    cases hP : (mergedPrefixes config).find?
        (fun p => isSubstring p.1 (normalizedOf input)) with
    | none => exact absurd hs0 (List.find?_eq_none.mp hP p0 hp0)
    | some p =>
      rw [probableType_normalizeCode_explicit, hP]
      rfl
  · intro p hp hs
    rw [hints_normalizeCode_explicit]
    exact List.mem_append.mpr
      (Or.inl (List.mem_append.mpr (Or.inr (tagged_mem_matchingHints hp hs))))
  · intro p hp hs
    have hkw : ("KEYWORD:" ++ p.1) ∈
        matchingHints "KEYWORD:" (mergedKeywords config) (normalizedOf input) :=
      tagged_mem_matchingHints hp hs
    by_cases hm : ("KEYWORD:" ++ p.1) = "KEYWORD:MERR"
    · right
      rw [hints_normalizeCode_explicit]
      refine List.mem_append.mpr (Or.inr ?_)
      rw [hm] at hkw
      exact mem_replaceFirst_self hkw
    · left
      rw [hints_normalizeCode_explicit]
      exact List.mem_append.mpr (Or.inr (mem_replaceFirst_of_ne hkw hm))

/-- Witness for claim C2, at the input 30IKESCOIN where the prefix IKES and
the keyword COIN both match. -/
theorem probableType_first_matching_pattern_witness :
    (∃ p ∈ mergedPrefixes defaultRawConfig,
      isSubstring p.1 (normalizedOf
        (JSInput.prim (JSPrim.str "30IKESCOIN") : JSInput PUnit)) = true) ∧
    ((((mergedPrefixes defaultRawConfig).find?
        (fun p => isSubstring p.1 (normalizedOf
          (JSInput.prim (JSPrim.str "30IKESCOIN") : JSInput PUnit)))).map Prod.snd
      = some (normalizeCode
          (JSInput.prim (JSPrim.str "30IKESCOIN") : JSInput PUnit)
          defaultRawConfig).probableType) ∧
    (∀ p ∈ mergedPrefixes defaultRawConfig,
      isSubstring p.1 (normalizedOf
        (JSInput.prim (JSPrim.str "30IKESCOIN") : JSInput PUnit)) = true →
      ("PREFIX:" ++ p.1) ∈ (normalizeCode
        (JSInput.prim (JSPrim.str "30IKESCOIN") : JSInput PUnit)
        defaultRawConfig).hints) ∧
    (∀ p ∈ mergedKeywords defaultRawConfig,
      isSubstring p.1 (normalizedOf
        (JSInput.prim (JSPrim.str "30IKESCOIN") : JSInput PUnit)) = true →
      ("KEYWORD:" ++ p.1) ∈ (normalizeCode
        (JSInput.prim (JSPrim.str "30IKESCOIN") : JSInput PUnit)
        defaultRawConfig).hints ∨
        ("EVENT:MERRY" : String) ∈ (normalizeCode
          (JSInput.prim (JSPrim.str "30IKESCOIN") : JSInput PUnit)
          defaultRawConfig).hints)) :=
  ⟨by decide, probableType_first_matching_pattern _ _ (by decide)⟩

/-- Claim C3: the Merristmas scenario with the default configuration:
normalized MERRISTMAS, valid, probable type event_reward, hints exactly the
one EVENT:MERRY entry (the recorded KEYWORD:MERR hint replaced in place),
length 10. -/
theorem normalize_merristmas :
    (normalizeCode (JSInput.prim (JSPrim.str "Merristmas") : JSInput PUnit)
        defaultRawConfig).normalized = "MERRISTMAS" ∧
    (normalizeCode (JSInput.prim (JSPrim.str "Merristmas") : JSInput PUnit)
        defaultRawConfig).isValidFormat = true ∧
    (normalizeCode (JSInput.prim (JSPrim.str "Merristmas") : JSInput PUnit)
        defaultRawConfig).probableType = "event_reward" ∧
    (normalizeCode (JSInput.prim (JSPrim.str "Merristmas") : JSInput PUnit)
        defaultRawConfig).hints = ["EVENT:MERRY"] ∧
    (normalizeCode (JSInput.prim (JSPrim.str "Merristmas") : JSInput PUnit)
        defaultRawConfig).length = 10 := by
  decide

/-- Claim C4: batch processing maps the per-item operation over a proper
array in order with the same configuration, and returns the empty sequence
for any non-array argument. -/
theorem normalizeCodes_maps_in_order {μ : Type} (l : List (JSInput μ))
    (config : RawConfig) (i : Nat) (v : JSPrim) :
    (normalizeCodes (BatchInput.arr l) config).length = l.length ∧
    (normalizeCodes (BatchInput.arr l) config)[i]? =
      (l[i]?).map (fun input => normalizeCode input config) ∧
    normalizeCodes (BatchInput.notArray v : BatchInput μ) config = [] := by
  refine ⟨?_, ?_, rfl⟩
  · simp [normalizeCodes]
  · simp [normalizeCodes]

/-- Claim C5: the two operations are total over every modelled input shape
(they are plain total functions of the embedding), and degenerate inputs
coerce to safe defaults: null or undefined inputs behave as the empty text,
an object without a usable code field yields the empty raw text, and a
non-array batch argument yields the empty sequence. -/
theorem normalize_total_safe_defaults {μ : Type} (config : RawConfig)
    (m : Option μ) (v : JSPrim) :
    normalizeCode (JSInput.prim JSPrim.nullV : JSInput μ) config
      = normalizeCode (JSInput.prim (JSPrim.str "")) config ∧
    normalizeCode (JSInput.prim JSPrim.undef : JSInput μ) config
      = normalizeCode (JSInput.prim (JSPrim.str "")) config ∧
    (normalizeCode (JSInput.obj JSPrim.nullV m) config).raw = "" ∧
    (normalizeCode (JSInput.obj JSPrim.undef m) config).raw = "" ∧
    normalizeCodes (BatchInput.notArray v : BatchInput μ) config = [] :=
  ⟨rfl, rfl, rfl, rfl, rfl⟩

/-- Claim C6: the normalization pipeline is idempotent: normalizing the
normalized output of any text input leaves it unchanged, under any
configurations for the two calls. -/
theorem normalize_idempotent (s : String) (c₁ c₂ : RawConfig) :
    (normalizeCode (JSInput.prim (JSPrim.str
        ((normalizeCode (JSInput.prim (JSPrim.str s) : JSInput PUnit)
          c₁).normalized)) : JSInput PUnit) c₂).normalized
      = (normalizeCode (JSInput.prim (JSPrim.str s) : JSInput PUnit)
          c₁).normalized := by
  have h1 : ∀ (t : String) (cc : RawConfig),
      (normalizeCode (JSInput.prim (JSPrim.str t) : JSInput PUnit) cc).normalized
        = String.mk (normalizeChars t.data) := by
    intro t cc
    rw [normalized_normalizeCode, normalizedOf_str]
  rw [h1, h1,
    show (String.mk (normalizeChars s.data)).data = normalizeChars s.data from rfl,
    normalizeChars_idem]

/-- Claim C7: whenever the probable type is not unknown, the hints name a
matched pattern through a PREFIX entry, a KEYWORD entry, or the EVENT:MERRY
entry the MERR rewrite produced. -/
theorem probableType_known_implies_hint {μ : Type} (input : JSInput μ)
    (config : RawConfig)
    (h : (normalizeCode input config).probableType ≠ "unknown") :
    ∃ p : String × String,
      (p ∈ mergedPrefixes config ∧ isSubstring p.1 (normalizedOf input) = true ∧
        ("PREFIX:" ++ p.1) ∈ (normalizeCode input config).hints) ∨
      (p ∈ mergedKeywords config ∧ isSubstring p.1 (normalizedOf input) = true ∧
        (("KEYWORD:" ++ p.1) ∈ (normalizeCode input config).hints ∨
          ("EVENT:MERRY" : String) ∈ (normalizeCode input config).hints)) := by
  cases hP : (mergedPrefixes config).find?
      (fun p => isSubstring p.1 (normalizedOf input)) with
  | some p =>
    have hmem : p ∈ mergedPrefixes config := List.mem_of_find?_eq_some hP
    have hsub : isSubstring p.1 (normalizedOf input) = true :=
      @List.find?_some _ (fun q => isSubstring q.1 (normalizedOf input)) p _ hP
    refine ⟨p, Or.inl ⟨hmem, hsub, ?_⟩⟩
    rw [hints_normalizeCode_explicit]
    exact List.mem_append.mpr
      (Or.inl (List.mem_append.mpr (Or.inr (tagged_mem_matchingHints hmem hsub))))
  | none =>
    cases hK : (mergedKeywords config).find?
        (fun p => isSubstring p.1 (normalizedOf input)) with
    | some p =>
      have hmem : p ∈ mergedKeywords config := List.mem_of_find?_eq_some hK
      have hsub : isSubstring p.1 (normalizedOf input) = true :=
        @List.find?_some _ (fun q => isSubstring q.1 (normalizedOf input)) p _ hK
      refine ⟨p, Or.inr ⟨hmem, hsub, ?_⟩⟩
      have hkw : ("KEYWORD:" ++ p.1) ∈
          matchingHints "KEYWORD:" (mergedKeywords config) (normalizedOf input) :=
        tagged_mem_matchingHints hmem hsub
      by_cases hm : ("KEYWORD:" ++ p.1) = "KEYWORD:MERR"
      · right
        rw [hints_normalizeCode_explicit]
        refine List.mem_append.mpr (Or.inr ?_)
        rw [hm] at hkw
        exact mem_replaceFirst_self hkw
      · left
        rw [hints_normalizeCode_explicit]
        exact List.mem_append.mpr (Or.inr (mem_replaceFirst_of_ne hkw hm))
    | none =>
      exact absurd (by rw [probableType_normalizeCode_explicit, hP, hK]) h

/-- Witness for claim C7, at the Merristmas input whose probable type is
event_reward. -/
theorem probableType_known_implies_hint_witness :
    (normalizeCode (JSInput.prim (JSPrim.str "Merristmas") : JSInput PUnit)
        defaultRawConfig).probableType ≠ "unknown" ∧
    (∃ p : String × String,
      (p ∈ mergedPrefixes defaultRawConfig ∧
        isSubstring p.1 (normalizedOf
          (JSInput.prim (JSPrim.str "Merristmas") : JSInput PUnit)) = true ∧
        ("PREFIX:" ++ p.1) ∈ (normalizeCode
          (JSInput.prim (JSPrim.str "Merristmas") : JSInput PUnit)
          defaultRawConfig).hints) ∨
      (p ∈ mergedKeywords defaultRawConfig ∧
        isSubstring p.1 (normalizedOf
          (JSInput.prim (JSPrim.str "Merristmas") : JSInput PUnit)) = true ∧
        (("KEYWORD:" ++ p.1) ∈ (normalizeCode
          (JSInput.prim (JSPrim.str "Merristmas") : JSInput PUnit)
          defaultRawConfig).hints ∨
          ("EVENT:MERRY" : String) ∈ (normalizeCode
            (JSInput.prim (JSPrim.str "Merristmas") : JSInput PUnit)
            defaultRawConfig).hints))) :=
  ⟨by decide, probableType_known_implies_hint _ _ (by decide)⟩

/-- Claim C8 counterexample: for the raw number 0 the result's raw field is
the empty text, not the textual form 0, because the source coerces through
the falsy-collapsing expression. -/
theorem raw_zero_counterexample :
    (normalizeCode (JSInput.prim (JSPrim.num 0) : JSInput PUnit)
        defaultRawConfig).raw = "" ∧
    (normalizeCode (JSInput.prim (JSPrim.num 0) : JSInput PUnit)
        defaultRawConfig).raw ≠ "0" := by
  decide

/-- Claim C8 as amended: for every non-record input, the raw field is the
falsy-aware text coercion: null, undefined, the number 0, false and the
empty text give the empty text, while every other value gives its textual
form. -/
theorem raw_falsy_coercion {μ : Type} (config : RawConfig) :
    (∀ n : Int, (normalizeCode (JSInput.prim (JSPrim.num n) : JSInput μ) config).raw
      = if n = 0 then "" else toString n) ∧
    (∀ b : Bool, (normalizeCode (JSInput.prim (JSPrim.boolV b) : JSInput μ) config).raw
      = if b then "true" else "") ∧
    (∀ s : String, (normalizeCode (JSInput.prim (JSPrim.str s) : JSInput μ) config).raw
      = s) ∧
    (normalizeCode (JSInput.prim JSPrim.nullV : JSInput μ) config).raw = "" ∧
    (normalizeCode (JSInput.prim JSPrim.undef : JSInput μ) config).raw = "" := by
  refine ⟨fun n => rfl, fun b => rfl, fun s => ?_, rfl, rfl⟩
  rw [raw_normalizeCode]
  exact jsToStringOrEmpty_str s

/-- Claim C9: the meta field of the result is exactly the meta the input
supplied: absent for every primitive input and for an object without meta,
and the supplied value passed through untouched otherwise, for an arbitrary
payload type. -/
theorem meta_mirrors_input {μ : Type} (config : RawConfig) :
    (∀ v : JSPrim, (normalizeCode (JSInput.prim v : JSInput μ) config).meta = none) ∧
    (∀ code : JSPrim,
      (normalizeCode (JSInput.obj code none : JSInput μ) config).meta = none) ∧
    (∀ (code : JSPrim) (m : μ),
      (normalizeCode (JSInput.obj code (some m)) config).meta = some m) :=
  ⟨fun _ => rfl, fun _ => rfl, fun _ _ => rfl⟩

/-- Claim C10: the hints sequence is the INVALID:CHAR hint when present,
followed by the PREFIX hints in configured prefix order, followed by the
KEYWORD and EVENT hints in configured keyword order. -/
theorem hints_ordering {μ : Type} (input : JSInput μ) (config : RawConfig) :
    (normalizeCode input config).hints =
      (if hasInvalidChar (normalizedOf input) then ["INVALID:CHAR"] else [])
      ++ matchingHints "PREFIX:" (mergedPrefixes config) (normalizedOf input)
      ++ replaceFirst
          (matchingHints "KEYWORD:" (mergedKeywords config) (normalizedOf input))
          "KEYWORD:MERR" "EVENT:MERRY" :=
  hints_normalizeCode_explicit input config

end GameCodeNormalizer
